import Mathlib

set_option maxHeartbeats 1000000

/-!
Shallow embedding of the record store and algorithm library of
`src/management_mahasiswa.py` (classes `Person`, `Mahasiswa`, `DataManager`,
`SearchAlgorithms`, `SortAlgorithms`, `Validator`).

Modelling conventions:
* Python strings are sequences of Unicode code points; where the code compares
  or lowercases strings we work on `List Char` (`String.data`), whose
  lexicographic `LinearOrder` coincides with Python's string comparison.
* The mutable array `self._data` together with the JSON file on disk is the
  state `DataManager`; the JSON file itself is modelled structurally as the
  list of dictionaries that `json.dump` writes and `json.load` reads back.
* Loops are translated to structural recursion; where a loop counter is not
  itself structural the recursion runs on an explicit bound (`fuel`) that the
  call sites instantiate so it can never run out, keeping every definition
  kernel-computable.
* `raise ValueError(...)` in setters becomes `Except.error`; the class-level
  counter `Mahasiswa._total_mahasiswa` is threaded explicitly.
-/

/-- Model of class `Mahasiswa` (lines 34-85): attributes `_id`, `_nama`, `_nim`. -/
structure Mahasiswa where
  id : Nat
  nama : String
  nim : String
deriving DecidableEq

/-- Default record, only used as the (never reached) default of `List.getD`. -/
def mhs0 : Mahasiswa := ⟨0, "", ""⟩

/-- Python `str.lower()` on the underlying code points. -/
def pyLower (s : List Char) : List Char := s.map Char.toLower

/-- The test `not value.strip()` of the `nama` setter (line 26): true iff the
string is empty after trimming, i.e. consists of whitespace only. -/
def blankName (s : String) : Bool := s.data.all Char.isWhitespace

/-- The test `re.match(r'^\d+$', value)` of the `nim` setter (line 50):
nonempty and all digits. -/
def digitsOnly (s : String) : Bool := !s.data.isEmpty && s.data.all Char.isDigit

/-- Property setter `Person.nama` (lines 24-28): raises when the value is blank. -/
def setNama (m : Mahasiswa) (value : String) : Except String Mahasiswa :=
  if blankName value then Except.error "Nama tidak boleh kosong"
  else Except.ok { m with nama := value }

/-- Property setter `Mahasiswa.nim` (lines 48-52): raises when the value is not
a nonempty digit string. -/
def setNim (m : Mahasiswa) (value : String) : Except String Mahasiswa :=
  if !digitsOnly value then Except.error "NIM harus berupa angka"
  else Except.ok { m with nim := value }

/-- Constructor `Mahasiswa.__init__` (lines 38-42).  It assigns `self._nama`
and `self._nim` directly (the validating property setters are not invoked),
sets `_id` to the class counter plus one and increments the counter. -/
def mkMahasiswa (counter : Nat) (nama nim : String) : Mahasiswa × Nat :=
  ({ id := counter + 1, nama := nama, nim := nim }, counter + 1)

/-- One entry of the JSON file: the dictionary `{'id':…, 'nama':…, 'nim':…}`. -/
structure MDict where
  id : Nat
  nama : String
  nim : String
deriving DecidableEq

/-- `Mahasiswa.to_dict` (lines 62-68). -/
def to_dict (m : Mahasiswa) : MDict := ⟨m.id, m.nama, m.nim⟩

/-- `Mahasiswa.from_dict` (lines 70-75): calls the constructor (which bumps the
class counter) and then overwrites `_id` with the stored id. -/
def from_dict (counter : Nat) (d : MDict) : Mahasiswa × Nat :=
  let p := mkMahasiswa counter d.nama d.nim
  ({ p.1 with id := d.id }, p.2)

/-- The list comprehension `[Mahasiswa.from_dict(item) for item in data]`
(line 160), threading the class counter. -/
def fromDictAll (counter : Nat) : List MDict → List Mahasiswa × Nat
  | [] => ([], counter)
  | d :: ds =>
    let p := from_dict counter d
    let q := fromDictAll p.2 ds
    (p.1 :: q.1, q.2)

/-- Python `max(xs, default=0)` for natural numbers. -/
def listMax (xs : List Nat) : Nat := xs.foldr max 0

/-- `DataManager.simpan_ke_file` (lines 144-152): the file contents written by
`json.dump([mhs.to_dict() for mhs in self._data])`. -/
def simpan_ke_file (data : List Mahasiswa) : List MDict := data.map to_dict

/-- `DataManager.baca_dari_file` (lines 154-164): rebuilds `self._data` from
the file and resets `Mahasiswa._total_mahasiswa` to `max(ids, default=0)`. -/
def baca_dari_file (counter : Nat) (file : List MDict) : List Mahasiswa × Nat :=
  let ms := (fromDictAll counter file).1
  (ms, listMax (ms.map Mahasiswa.id))

/-- State of a `DataManager` (lines 91-164): the in-memory array `self._data`
and the JSON file behind `self._file_path`. -/
structure DataManager where
  data : List Mahasiswa
  file : List MDict
deriving DecidableEq

/-- `DataManager.tambah` (lines 108-112): append, then auto-save. -/
def tambah (st : DataManager) (m : Mahasiswa) : DataManager :=
  let d := st.data ++ [m]
  { data := d, file := simpan_ke_file d }

/-- `DataManager.get_by_index` (lines 114-119): `self._data[index]` guarded by
`0 <= index < len(self._data)`, `None` otherwise. -/
def get_by_index (st : DataManager) (index : Int) : Option Mahasiswa :=
  if 0 ≤ index ∧ index < (st.data.length : Int) then
    some (st.data.getD index.toNat mhs0)
  else none

/-- `DataManager.get_count` (lines 125-127). -/
def get_count (st : DataManager) : Nat := st.data.length

/-- `DataManager.edit` (lines 129-135): on a valid index it runs the `nama`
setter, then the `nim` setter, then auto-saves.  Each setter mutates the stored
record in place before the next step can raise, so a failing `nim` setter
leaves the new name behind and skips the save.  The returned `Option String`
is the raised `ValueError` message, if any. -/
def edit (st : DataManager) (index : Int) (nama nim : String) :
    DataManager × Option String :=
  if 0 ≤ index ∧ index < (st.data.length : Int) then
    let i := index.toNat
    let m := st.data.getD i mhs0
    match setNama m nama with
    | Except.error e => (st, some e)
    | Except.ok m1 =>
      match setNim m1 nim with
      | Except.error e => ({ st with data := st.data.set i m1 }, some e)
      | Except.ok m2 =>
        let d := st.data.set i m2
        ({ data := d, file := simpan_ke_file d }, none)
  else (st, none)

/-- `DataManager.hapus` (lines 137-142): `del self._data[index]` on a valid
index followed by auto-save, silent no-op otherwise. -/
def hapus (st : DataManager) (index : Int) : DataManager :=
  if 0 ≤ index ∧ index < (st.data.length : Int) then
    let d := st.data.eraseIdx index.toNat
    { data := d, file := simpan_ke_file d }
  else st

/-- Key selection shared by every sort comparison and by `linear_search`
(e.g. line 183, 240): `mhs.nama.lower() if by == 'nama' else mhs.nim`. -/
def keyOf (byKey : String) (m : Mahasiswa) : List Char :=
  if byKey = "nama" then pyLower m.nama.data else m.nim.data

/-- Python's `needle in hay` on strings: `needle` occurs as a contiguous
substring, i.e. some window of `hay` of the needle's length equals it. -/
def strContains (hay needle : List Char) : Bool :=
  (List.range (hay.length + 1)).any
    (fun i => needle == (hay.drop i).take needle.length)

/-- `SearchAlgorithms.linear_search` (lines 173-187): keeps, in order, the
records whose selected field contains the keyword case-insensitively. -/
def linear_search (data : List Mahasiswa) (keyword : String) (byKey : String) :
    List Mahasiswa :=
  data.filter (fun m => strContains (pyLower (keyOf byKey m)) (pyLower keyword.data))

/-- The merge loop of `SortAlgorithms._merge` (lines 311-330), on an explicit
bound: compares keys with `a <= b`, preferring the left element on ties, and
appends the leftover tail. -/
def mergeByF (k : Mahasiswa → List Char) :
    Nat → List Mahasiswa → List Mahasiswa → List Mahasiswa
  | 0, l, r => l ++ r
  | _ + 1, [], r => r
  | _ + 1, a :: ls, [] => a :: ls
  | fuel + 1, a :: ls, b :: rs =>
    if k a ≤ k b then a :: mergeByF k fuel ls (b :: rs)
    else b :: mergeByF k fuel (a :: ls) rs

/-- `SortAlgorithms.merge_sort` (lines 296-309): splits at `len // 2` and
merges the recursively sorted halves.  The recursion depth is bounded by the
length, which the wrapper passes as fuel. -/
def msFuel (k : Mahasiswa → List Char) : Nat → List Mahasiswa → List Mahasiswa
  | 0, data => data
  | fuel + 1, data =>
    if data.length ≤ 1 then data
    else
      let mid := data.length / 2
      let left := msFuel k fuel (data.take mid)
      let right := msFuel k fuel (data.drop mid)
      mergeByF k (left.length + right.length) left right

/-- `SortAlgorithms.merge_sort` entry point with the key of `by`. -/
def merge_sort (byKey : String) (data : List Mahasiswa) : List Mahasiswa :=
  msFuel (keyOf byKey) data.length data

/-- The `while low <= high` loop of `SearchAlgorithms.binary_search`
(lines 198-212), with `mid = (low + high) // 2` (Python floor division is
`Int.ediv` for the positive divisor 2).  The interval shrinks every step, so
the wrapper's fuel `len + 1 ≥ high - low + 1` can never run out. -/
def bsLoop (sd : List Mahasiswa) (nim : List Char) :
    Nat → Int → Int → Option Mahasiswa
  | 0, _, _ => none
  | fuel + 1, low, high =>
    if low ≤ high then
      let mid := (low + high).ediv 2
      let midRec := sd.getD mid.toNat mhs0
      if midRec.nim.data = nim then some midRec
      else if midRec.nim.data < nim then bsLoop sd nim fuel (mid + 1) high
      else bsLoop sd nim fuel low (mid - 1)
    else none

/-- `SearchAlgorithms.binary_search` (lines 189-212): sorts a copy of the data
ascending by `nim` (`sorted(data, key=lambda x: x.nim)`, modelled by the
verified stable merge sort) and runs the classic loop. -/
def binary_search (data : List Mahasiswa) (nim : String) : Option Mahasiswa :=
  let sd := msFuel (fun m => m.nim.data) data.length data
  bsLoop sd nim.data (sd.length + 1) 0 ((sd.length : Int) - 1)

/-- One bubble pass: the inner loop `for j in range(0, c)` of
`SortAlgorithms.bubble_sort` (lines 238-244) swapping adjacent elements with
`if a > b`.  The mutable array walk is expressed structurally: the element the
loop carries rightwards is the head of the remaining suffix. -/
def bpass (k : Mahasiswa → List Char) : Nat → List Mahasiswa → List Mahasiswa
  | 0, l => l
  | _ + 1, [] => []
  | _ + 1, [a] => [a]
  | c + 1, a :: b :: rest =>
    if k a > k b then b :: bpass k c (a :: rest)
    else a :: bpass k c (b :: rest)

/-- The outer loop `for i in range(n)` of `bubble_sort`: the pass bound starts
at `n - 1` and decreases by one each iteration. -/
def bubbleIter (k : Mahasiswa → List Char) :
    Nat → Nat → List Mahasiswa → List Mahasiswa
  | 0, _, l => l
  | r + 1, c, l => bubbleIter k r (c - 1) (bpass k c l)

/-- `SortAlgorithms.bubble_sort` (lines 229-246). -/
def bubble_sort (byKey : String) (data : List Mahasiswa) : List Mahasiswa :=
  bubbleIter (keyOf byKey) data.length (data.length - 1) data

/-- The scan `for j in range(i+1, n)` of `SortAlgorithms.selection_sort`
(lines 257-264): carries the current minimum and its absolute index, moving to
`j` only on a strict improvement (`if a > b`), hence keeping the first
minimum. -/
def findMin (k : Mahasiswa → List Char) (cur : Mahasiswa) (curIdx : Nat)
    (j : Nat) : List Mahasiswa → Mahasiswa × Nat
  | [] => (cur, curIdx)
  | x :: xs =>
    if k cur > k x then findMin k x j (j + 1) xs
    else findMin k cur curIdx (j + 1) xs

/-- The outer loop of `selection_sort` (lines 248-268): swap the first minimum
of the suffix into position `i` and continue on the rest.  `xs.set (p.2 - 1) a`
is the write-back half of the Python swap
`sorted_data[i], sorted_data[min_idx] = sorted_data[min_idx], sorted_data[i]`.
One element is placed per iteration, so the wrapper's fuel (the length) can
never run out. -/
def selSortFuel (k : Mahasiswa → List Char) :
    Nat → List Mahasiswa → List Mahasiswa
  | 0, l => l
  | _ + 1, [] => []
  | fuel + 1, a :: xs =>
    let p := findMin k a 0 1 xs
    if p.2 = 0 then a :: selSortFuel k fuel xs
    else p.1 :: selSortFuel k fuel (xs.set (p.2 - 1) a)

/-- `SortAlgorithms.selection_sort` (lines 248-268). -/
def selection_sort (byKey : String) (data : List Mahasiswa) : List Mahasiswa :=
  selSortFuel (keyOf byKey) data.length data

/-- The shift-and-place inner `while` of `SortAlgorithms.insertion_sort`
(lines 282-292) seen from the left of the sorted prefix: the moving element
comes to rest directly before the first strictly greater element. -/
def insertKey (k : Mahasiswa → List Char) (x : Mahasiswa) :
    List Mahasiswa → List Mahasiswa
  | [] => [x]
  | y :: ys => if k x < k y then x :: y :: ys else y :: insertKey k x ys

/-- The outer loop `for i in range(1, len)` of `insertion_sort`: insert each
element into the sorted prefix `acc`. -/
def insFold (k : Mahasiswa → List Char) (acc : List Mahasiswa)
    (l : List Mahasiswa) : List Mahasiswa :=
  l.foldl (fun a x => insertKey k x a) acc

/-- `SortAlgorithms.insertion_sort` (lines 270-294). -/
def insertion_sort (byKey : String) (data : List Mahasiswa) : List Mahasiswa :=
  insFold (keyOf byKey) [] data

/-- The inner `while j >= gap` of `SortAlgorithms.shell_sort` (lines 347-355):
shift the element `gap` below up to position `j` while it is strictly greater
than `temp`.  `j` strictly decreases, so fuel `j` can never run out. -/
def shellWhileF (k : Mahasiswa → List Char) (gap : Nat) :
    Nat → List Mahasiswa → Mahasiswa → Nat → List Mahasiswa × Nat
  | 0, l, _, j => (l, j)
  | fuel + 1, l, temp, j =>
    if gap ≤ j ∧ 0 < gap ∧ k (l.getD (j - gap) mhs0) > k temp then
      shellWhileF k gap fuel (l.set j (l.getD (j - gap) mhs0)) temp (j - gap)
    else (l, j)

/-- The middle loop `for i in range(gap, n)` of `shell_sort` (lines 343-357):
run the inner while for `temp = l[i]` and write `temp` to the final slot. -/
def shellPassAux (k : Mahasiswa → List Char) (gap : Nat) :
    Nat → Nat → List Mahasiswa → List Mahasiswa
  | 0, _, l => l
  | r + 1, i, l =>
    let temp := l.getD i mhs0
    let p := shellWhileF k gap i l temp i
    shellPassAux k gap r (i + 1) (p.1.set p.2 temp)

/-- The outer `while gap > 0` of `shell_sort` (lines 342-358) with
`gap //= 2`; the gap halves, so fuel equal to the initial gap suffices. -/
def shellGapsF (k : Mahasiswa → List Char) :
    Nat → Nat → List Mahasiswa → List Mahasiswa
  | 0, _, l => l
  | fuel + 1, gap, l =>
    if gap = 0 then l
    else shellGapsF k fuel (gap / 2) (shellPassAux k gap (l.length - gap) gap l)

/-- `SortAlgorithms.shell_sort` (lines 332-360), starting from `gap = n // 2`. -/
def shell_sort (byKey : String) (data : List Mahasiswa) : List Mahasiswa :=
  shellGapsF (keyOf byKey) (data.length / 2) (data.length / 2) data

/-- Non-decreasing order of a record list under a key. -/
abbrev SortedBy (k : Mahasiswa → List Char) (l : List Mahasiswa) : Prop :=
  List.Pairwise (fun a b => k a ≤ k b) l

/-- `needle` occurs in `hay` as a contiguous substring. -/
def IsSubstring (needle hay : List Char) : Prop :=
  ∃ l₁ l₂, hay = l₁ ++ needle ++ l₂

/-! ### Generic helpers about lists and strings -/

theorem strEq_of_data {a b : String} (h : a.data = b.data) : a = b := by
  cases a
  cases b
  cases h
  rfl

theorem getD_set_self (l : List Mahasiswa) (i : Nat) (a : Mahasiswa)
    (h : i < l.length) : (l.set i a).getD i mhs0 = a := by
  rw [List.getD_eq_getElem _ _ (by simpa using h)]
  exact List.getElem_set_self (by simpa using h)

theorem getD_set_ne (l : List Mahasiswa) (i j : Nat) (a : Mahasiswa)
    (hne : i ≠ j) : (l.set i a).getD j mhs0 = l.getD j mhs0 := by
  by_cases hj : j < l.length
  · rw [List.getD_eq_getElem _ _ (by simpa using hj), List.getD_eq_getElem _ _ hj]
    exact List.getElem_set_ne hne (by simpa using hj)
  · have hj' : l.length ≤ j := Nat.le_of_not_lt hj
    rw [List.getD_eq_default _ _ (by simpa using hj'), List.getD_eq_default _ _ hj']

theorem eraseIdx_getD_lt : ∀ (l : List Mahasiswa) (i j : Nat), j < i →
    (l.eraseIdx i).getD j mhs0 = l.getD j mhs0 := by
  intro l
  induction l with
  | nil => intro i j _; rfl
  | cons x xs ih =>
    intro i j h
    cases i with
    | zero => omega
    | succ i' =>
      cases j with
      | zero => rfl
      | succ j' => simpa using ih i' j' (by omega)

theorem eraseIdx_getD_ge : ∀ (l : List Mahasiswa) (i j : Nat), i ≤ j → i < l.length →
    (l.eraseIdx i).getD j mhs0 = l.getD (j + 1) mhs0 := by
  intro l
  induction l with
  | nil => intro i j _ hl; simp at hl
  | cons x xs ih =>
    intro i j h hl
    cases i with
    | zero => rfl
    | succ i' =>
      cases j with
      | zero => omega
      | succ j' => simpa using ih i' j' (by omega) (by simpa using hl)

/-! ### C3: persistence round trip -/

theorem fromDictAll_map_to_dict : ∀ (data : List Mahasiswa) (c : Nat),
    (fromDictAll c (data.map to_dict)).1 = data := by
  intro data
  induction data with
  | nil => intro c; rfl
  | cons m ms ih =>
    intro c
    simp [fromDictAll, from_dict, mkMahasiswa, to_dict, ih]

/-- C3: serializing an in-memory record list with `simpan_ke_file` (via
`to_dict`) and reading it back with `baca_dari_file` (via `from_dict`)
reproduces the same list of records: same ids, names and registration
numbers, in the same order. -/
theorem persist_load_round_trip : ∀ (data : List Mahasiswa) (counter : Nat),
    (baca_dari_file counter (simpan_ke_file data)).1 = data := by
  intro data counter
  simpa [baca_dari_file, simpan_ke_file] using fromDictAll_map_to_dict data counter

/-! ### C4: construction does not validate -/

/-- C4 counterexample: the constructor `Mahasiswa.__init__` assigns the raw
attributes, bypassing both property setters, so even a name that is blank
after trimming together with a non-digit registration number produces a
record instead of raising. -/
theorem construction_accepts_invalid_input :
    (mkMahasiswa 0 "" "abc").1 = ⟨1, "", "abc"⟩
    ∧ blankName "" = true ∧ digitsOnly "abc" = false := by
  decide

/-- C4 amended: construction never fails and stores the given fields
verbatim (with id = counter + 1); the empty-after-trimming name check and
the all-digits registration check are enforced only by the `nama` and `nim`
property setters. -/
theorem construction_total_validation_in_setters :
    ∀ (c : Nat) (nama nim : String) (m : Mahasiswa) (v : String),
      mkMahasiswa c nama nim = ({ id := c + 1, nama := nama, nim := nim }, c + 1)
      ∧ (setNama m v).toOption = (if blankName v then none else some { m with nama := v })
      ∧ (setNim m v).toOption = (if digitsOnly v then some { m with nim := v } else none) := by
  intro c nama nim m v
  refine ⟨rfl, ?_, ?_⟩
  · by_cases h : blankName v <;> simp [setNama, h, Except.toOption]
  · by_cases h : digitsOnly v <;> simp [setNim, h, Except.toOption]

/-! ### C9: the store itself never checks uniqueness -/

/-- C9: `tambah` appends unconditionally: adding two records with the same
registration number stores both of them, the count growing by one each
time — uniqueness is the callers' business. -/
theorem tambah_no_uniqueness_guard :
    ∀ (st : DataManager) (m1 m2 : Mahasiswa), m1.nim = m2.nim →
      (tambah (tambah st m1) m2).data = st.data ++ [m1, m2]
      ∧ get_count (tambah st m1) = get_count st + 1
      ∧ get_count (tambah (tambah st m1) m2) = get_count st + 2
      ∧ m1 ∈ (tambah (tambah st m1) m2).data
      ∧ m2 ∈ (tambah (tambah st m1) m2).data := by
  intro st m1 m2 _
  refine ⟨by simp [tambah], by simp [tambah, get_count], by simp [tambah, get_count], ?_, ?_⟩
  · simp [tambah]
  · simp [tambah]

/-- Witness for C9 at a concrete store and two records sharing nim "123". -/
theorem tambah_no_uniqueness_guard_witness :
    (tambah (tambah ⟨[], []⟩ ⟨1, "a", "123"⟩) ⟨2, "b", "123"⟩).data
        = [⟨1, "a", "123"⟩, ⟨2, "b", "123"⟩]
    ∧ get_count (tambah (tambah ⟨[], []⟩ ⟨1, "a", "123"⟩) ⟨2, "b", "123"⟩) = 2 := by
  have h := tambah_no_uniqueness_guard ⟨[], []⟩ ⟨1, "a", "123"⟩ ⟨2, "b", "123"⟩ rfl
  refine ⟨by simpa using h.1, by simpa [get_count] using h.2.2.1⟩

/-! ### C10: edit mutates the name before the nim setter can raise -/

/-- C10: on a valid index, a non-blank new name and a new registration number
that is not all digits, `edit` raises the nim `ValueError` after the name
setter has already mutated the record: the stored record carries the new
name, keeps the old registration number, and no save to file happens. -/
theorem edit_not_atomic_on_invalid_nim :
    ∀ (st : DataManager) (index : Int) (nama nim : String),
      0 ≤ index → index < (st.data.length : Int) →
      blankName nama = false → digitsOnly nim = false →
      (edit st index nama nim).2 = some "NIM harus berupa angka"
      ∧ (edit st index nama nim).1.data =
          st.data.set index.toNat
            ⟨(st.data.getD index.toNat mhs0).id, nama, (st.data.getD index.toNat mhs0).nim⟩
      ∧ ((edit st index nama nim).1.data.getD index.toNat mhs0).nama = nama
      ∧ ((edit st index nama nim).1.data.getD index.toNat mhs0).nim =
          (st.data.getD index.toNat mhs0).nim
      ∧ (edit st index nama nim).1.file = st.file := by
  intro st index nama nim h0 h1 hbn hdg
  have hidx : index.toNat < st.data.length := by omega
  have hE : edit st index nama nim =
      (⟨st.data.set index.toNat
          ⟨(st.data.getD index.toNat mhs0).id, nama, (st.data.getD index.toNat mhs0).nim⟩,
        st.file⟩,
        some "NIM harus berupa angka") := by
    simp [edit, h0, h1, setNama, setNim, hbn, hdg]
  rw [hE]
  refine ⟨rfl, rfl, ?_, ?_, rfl⟩
  · rw [getD_set_self _ _ _ hidx]
  · rw [getD_set_self _ _ _ hidx]

/-- Witness for C10: editing the only record of a store with a valid name
"Bob" and the invalid nim "x1" raises, leaves "Bob" with the old nim "123"
in memory, and does not touch the file. -/
theorem edit_not_atomic_on_invalid_nim_witness :
    (edit ⟨[⟨1, "Ada", "123"⟩], [⟨1, "Ada", "123"⟩]⟩ 0 "Bob" "x1").2
        = some "NIM harus berupa angka"
    ∧ (edit ⟨[⟨1, "Ada", "123"⟩], [⟨1, "Ada", "123"⟩]⟩ 0 "Bob" "x1").1.data
        = [⟨1, "Bob", "123"⟩]
    ∧ (edit ⟨[⟨1, "Ada", "123"⟩], [⟨1, "Ada", "123"⟩]⟩ 0 "Bob" "x1").1.file
        = [⟨1, "Ada", "123"⟩] := by
  have h := edit_not_atomic_on_invalid_nim ⟨[⟨1, "Ada", "123"⟩], [⟨1, "Ada", "123"⟩]⟩ 0
      "Bob" "x1" (by decide) (by decide) (by decide) (by decide)
  refine ⟨h.1, ?_, ?_⟩
  · rw [h.2.1]; decide
  · exact h.2.2.2.2

/-! ### C7: hapus deletes in place and silently ignores bad indices -/

/-- C7: on a valid index `hapus` removes exactly that element, every later
element moving down one position (as observed through `get_by_index`), and
on any invalid index it returns the state unchanged without raising. -/
theorem hapus_shifts_down_and_noop :
    ∀ (st : DataManager) (index : Int),
      (0 ≤ index → index < (st.data.length : Int) →
          (hapus st index).data.length = st.data.length - 1
        ∧ (∀ j : Int, 0 ≤ j → j < index →
              get_by_index (hapus st index) j = get_by_index st j)
        ∧ (∀ j : Int, index ≤ j → j < (st.data.length : Int) - 1 →
              get_by_index (hapus st index) j = get_by_index st (j + 1)))
      ∧ (¬ (0 ≤ index ∧ index < (st.data.length : Int)) → hapus st index = st) := by
  intro st index
  constructor
  · intro h0 h1
    have hidx : index.toNat < st.data.length := by omega
    have hH : (hapus st index).data = st.data.eraseIdx index.toNat := by
      simp [hapus, h0, h1]
    have hgl : (st.data.eraseIdx index.toNat).length = st.data.length - 1 := by
      rw [List.length_eraseIdx]
      simp [hidx]
    refine ⟨by rw [hH, hgl], ?_, ?_⟩
    · intro j hj0 hj1
      have hjn : j.toNat < index.toNat := by omega
      simp only [get_by_index, hH, hgl]
      split_ifs with hc1 hc2
      · rw [eraseIdx_getD_lt _ _ _ hjn]
      · exfalso; omega
      · exfalso; omega
      · rfl
    · intro j hj0 hj1
      have hjn : index.toNat ≤ j.toNat := by omega
      have hj1n : (j + 1).toNat = j.toNat + 1 := by omega
      simp only [get_by_index, hH, hgl]
      split_ifs with hc1 hc2
      · rw [eraseIdx_getD_ge _ _ _ hjn hidx, hj1n]
      · exfalso; omega
      · exfalso; omega
      · rfl
  · intro hne
    simp only [hapus]
    rw [if_neg hne]

/-- Witness for C7: removing index 0 of a three-element store makes the old
index 1 the new index 0, and an out-of-range index is a silent no-op. -/
theorem hapus_shifts_down_and_noop_witness :
    get_by_index (hapus ⟨[⟨1, "a", "1"⟩, ⟨2, "b", "2"⟩, ⟨3, "c", "3"⟩], []⟩ 0) 0
        = get_by_index ⟨[⟨1, "a", "1"⟩, ⟨2, "b", "2"⟩, ⟨3, "c", "3"⟩], []⟩ 1
    ∧ hapus ⟨[⟨1, "a", "1"⟩, ⟨2, "b", "2"⟩, ⟨3, "c", "3"⟩], []⟩ 5
        = ⟨[⟨1, "a", "1"⟩, ⟨2, "b", "2"⟩, ⟨3, "c", "3"⟩], []⟩ := by
  constructor
  · have h := (hapus_shifts_down_and_noop ⟨[⟨1, "a", "1"⟩, ⟨2, "b", "2"⟩, ⟨3, "c", "3"⟩], []⟩ 0).1
      (by decide) (by decide)
    have h3 := h.2.2 0 (by decide) (by decide)
    simpa using h3
  · exact (hapus_shifts_down_and_noop ⟨[⟨1, "a", "1"⟩, ⟨2, "b", "2"⟩, ⟨3, "c", "3"⟩], []⟩ 5).2
      (by decide)

/-! ### C8: linear search is an ordered case-insensitive substring filter -/

theorem strContains_iff (hay needle : List Char) :
    strContains hay needle = true ↔ IsSubstring needle hay := by
  unfold strContains IsSubstring
  rw [List.any_eq_true]
  constructor
  · rintro ⟨i, hi, hw⟩
    rw [beq_iff_eq] at hw
    refine ⟨hay.take i, (hay.drop i).drop needle.length, ?_⟩
    conv_lhs => rw [← List.take_append_drop i hay]
    rw [List.append_assoc]
    congr 1
    conv_lhs => rw [← List.take_append_drop needle.length (hay.drop i)]
    rw [← hw]
  · rintro ⟨l₁, l₂, he⟩
    refine ⟨l₁.length, ?_, ?_⟩
    · rw [List.mem_range, he]
      simp only [List.length_append]
      omega
    · rw [beq_iff_eq, he, List.append_assoc, List.drop_left, List.take_left]

/-- C8: `linear_search` returns exactly the records whose selected field
(case-insensitively) contains the keyword as a contiguous substring, keeping
the input order, and the empty keyword returns the whole list. -/
theorem linear_search_spec :
    ∀ (data : List Mahasiswa) (keyword byK : String),
      (∀ m, m ∈ linear_search data keyword byK ↔
          m ∈ data ∧ IsSubstring (pyLower keyword.data) (pyLower (keyOf byK m)))
      ∧ (linear_search data keyword byK).Sublist data
      ∧ linear_search data "" byK = data := by
  intro data keyword byK
  refine ⟨?_, ?_, ?_⟩
  · intro m
    unfold linear_search
    rw [List.mem_filter, strContains_iff]
  · unfold linear_search
    exact List.filter_sublist data
  · unfold linear_search
    apply List.filter_eq_self.mpr
    intro m _
    rw [strContains_iff]
    exact ⟨[], pyLower (keyOf byK m), by simp [pyLower]⟩

/-! ### C6: the counter after load is max(ids), the next id is max + 1 -/

theorem fromDictAll_ids : ∀ (file : List MDict) (c : Nat),
    ((fromDictAll c file).1).map Mahasiswa.id = file.map MDict.id := by
  intro file
  induction file with
  | nil => intro c; rfl
  | cons d ds ih =>
    intro c
    simp [fromDictAll, from_dict, mkMahasiswa, ih]

theorem listMax_le : ∀ (xs : List Nat), ∀ i ∈ xs, i ≤ listMax xs := by
  intro xs
  induction xs with
  | nil => intro i hi; simp at hi
  | cons x t ih =>
    intro i hi
    rcases List.mem_cons.mp hi with rfl | h2
    · exact le_max_left i (listMax t)
    · exact le_trans (ih i h2) (le_max_right x (listMax t))

theorem listMax_mem_or_zero : ∀ (xs : List Nat), listMax xs = 0 ∨ listMax xs ∈ xs := by
  intro xs
  induction xs with
  | nil => exact Or.inl rfl
  | cons x t ih =>
    rcases le_total x (listMax t) with h | h
    · have hm : listMax (x :: t) = listMax t := by
        show max x (listMax t) = listMax t
        exact max_eq_right h
      rcases ih with h0 | hmem
      · left
        rw [hm, h0]
      · right
        rw [hm]
        exact List.mem_cons_of_mem x hmem
    · have hm : listMax (x :: t) = x := by
        show max x (listMax t) = x
        exact max_eq_left h
      right
      rw [hm]
      exact List.mem_cons_self x t

/-- C6: after loading any file, the restored class counter is exactly the
maximum of the loaded id set (an upper bound of the ids that is 0 for an
empty file and otherwise one of them) — NOT max + 1 — and the next
construction assigns id max + 1, which collides with none of the loaded ids
(in particular whenever the ids were originally sequential). -/
theorem load_restores_counter_to_max :
    ∀ (c : Nat) (file : List MDict),
      (baca_dari_file c file).2 = listMax (file.map MDict.id)
      ∧ (∀ i ∈ file.map MDict.id, i ≤ (baca_dari_file c file).2)
      ∧ ((baca_dari_file c file).2 = 0 ∨ (baca_dari_file c file).2 ∈ file.map MDict.id)
      ∧ (∀ nama nim, (mkMahasiswa (baca_dari_file c file).2 nama nim).1.id
            = (baca_dari_file c file).2 + 1)
      ∧ (∀ nama nim, (mkMahasiswa (baca_dari_file c file).2 nama nim).1.id
            ∉ file.map MDict.id)
      ∧ (baca_dari_file c ([] : List MDict)).2 = 0 := by
  intro c file
  have hc : (baca_dari_file c file).2 = listMax (file.map MDict.id) := by
    show listMax (((fromDictAll c file).1).map Mahasiswa.id) = _
    rw [fromDictAll_ids]
  refine ⟨hc, ?_, ?_, ?_, ?_, rfl⟩
  · intro i hi
    rw [hc]
    exact listMax_le (file.map MDict.id) i hi
  · rw [hc]
    exact listMax_mem_or_zero (file.map MDict.id)
  · intro nama nim
    rfl
  · intro nama nim hmem
    have hle : (baca_dari_file c file).2 + 1 ≤ listMax (file.map MDict.id) :=
      listMax_le (file.map MDict.id) _ hmem
    rw [← hc] at hle
    omega

/-- Witness for C6 on a non-contiguous, non-ascending file with ids [3, 1]
(as left behind by deletions or hand edits): counter 3, next id 4, and 4
clashes with no loaded id. -/
theorem load_restores_counter_to_max_witness :
    (baca_dari_file 0 [⟨3, "a", "1"⟩, ⟨1, "b", "2"⟩]).2 = 3
    ∧ (3 : Nat) ≤ (baca_dari_file 0 [⟨3, "a", "1"⟩, ⟨1, "b", "2"⟩]).2
    ∧ (mkMahasiswa (baca_dari_file 0 [⟨3, "a", "1"⟩, ⟨1, "b", "2"⟩]).2 "c" "3").1.id = 4
    ∧ (mkMahasiswa (baca_dari_file 0 [⟨3, "a", "1"⟩, ⟨1, "b", "2"⟩]).2 "c" "3").1.id
        ∉ ([⟨3, "a", "1"⟩, ⟨1, "b", "2"⟩] : List MDict).map MDict.id := by
  have h := load_restores_counter_to_max 0 [⟨3, "a", "1"⟩, ⟨1, "b", "2"⟩]
  refine ⟨?_, h.2.1 3 (by decide), h.2.2.2.1 "c" "3", h.2.2.2.2.1 "c" "3"⟩
  rw [h.1]
  decide

/-! ### Permutation helpers for index-based swaps -/

theorem getset_perm : ∀ (xs : List Mahasiswa) (t : Nat) (a : Mahasiswa), t < xs.length →
    (a :: xs).Perm (xs.getD t mhs0 :: xs.set t a) := by
  intro xs
  induction xs with
  | nil => intro t a h; simp at h
  | cons x r ih =>
    intro t a h
    cases t with
    | zero => simpa using List.Perm.swap x a r
    | succ t' =>
      have h' : t' < r.length := by simpa using h
      refine List.Perm.trans (List.Perm.swap x a r) ?_
      refine List.Perm.trans (List.Perm.cons x (ih t' a h')) ?_
      simpa using List.Perm.swap (r.getD t' mhs0) x (r.set t' a)

theorem headswap_perm : ∀ (t : List Mahasiswa) (m : Nat) (a x : Mahasiswa), m < t.length →
    (x :: t.set m a).Perm (a :: t.set m x) := by
  intro t
  induction t with
  | nil => intro m a x h; simp at h
  | cons c r ih =>
    intro m a x h
    cases m with
    | zero => simpa using List.Perm.swap a x r
    | succ m' =>
      have h' : m' < r.length := by simpa using h
      refine List.Perm.trans (List.Perm.swap c x (r.set m' a)) ?_
      refine List.Perm.trans (List.Perm.cons c (ih m' a x h')) ?_
      simpa using List.Perm.swap a c (r.set m' x)

theorem set_set_perm : ∀ (l : List Mahasiswa) (i j : Nat) (x : Mahasiswa), i < j → j < l.length →
    ((l.set j (l.getD i mhs0)).set i x).Perm (l.set j x) := by
  intro l
  induction l with
  | nil => intro i j x hij hj; simp at hj
  | cons a t ih =>
    intro i j x hij hj
    cases i with
    | zero =>
      cases j with
      | zero => omega
      | succ j' =>
        have hj' : j' < t.length := by simpa using hj
        simpa using headswap_perm t j' a x hj'
    | succ i' =>
      cases j with
      | zero => omega
      | succ j' =>
        have hj' : j' < t.length := by simpa using hj
        simpa using List.Perm.cons a (ih i' j' x (by omega) hj')

theorem set_getD_eta : ∀ (l : List Mahasiswa) (i : Nat), i < l.length →
    l.set i (l.getD i mhs0) = l := by
  intro l
  induction l with
  | nil => intro i h; simp at h
  | cons a t ih =>
    intro i h
    cases i with
    | zero => rfl
    | succ i' =>
      have h' : i' < t.length := by simpa using h
      show a :: t.set i' ((a :: t).getD (i' + 1) mhs0) = a :: t
      rw [List.getD_cons_succ, ih i' h']

theorem take_set_of_le : ∀ (l : List Mahasiswa) (i n : Nat) (a : Mahasiswa), n ≤ i →
    (l.set i a).take n = l.take n := by
  intro l
  induction l with
  | nil => intro i n a _; rfl
  | cons x t ih =>
    intro i n a h
    cases n with
    | zero => rfl
    | succ n' =>
      cases i with
      | zero => omega
      | succ i' => simp [ih i' n' a (by omega)]

theorem drop_set_of_lt : ∀ (l : List Mahasiswa) (i n : Nat) (a : Mahasiswa), i < n →
    (l.set i a).drop n = l.drop n := by
  intro l
  induction l with
  | nil => intro i n a _; rfl
  | cons x t ih =>
    intro i n a h
    cases i with
    | zero =>
      cases n with
      | zero => omega
      | succ n' => rfl
    | succ i' =>
      cases n with
      | zero => omega
      | succ n' => simpa using ih i' n' a (by omega)

theorem drop_set_self : ∀ (l : List Mahasiswa) (i : Nat) (a : Mahasiswa), i < l.length →
    (l.set i a).drop i = a :: l.drop (i + 1) := by
  intro l
  induction l with
  | nil => intro i a h; simp at h
  | cons x t ih =>
    intro i a h
    cases i with
    | zero => rfl
    | succ i' => simpa using ih i' a (by simpa using h)

theorem take_succ_getD : ∀ (l : List Mahasiswa) (i : Nat), i < l.length →
    l.take (i + 1) = l.take i ++ [l.getD i mhs0] := by
  intro l
  induction l with
  | nil => intro i h; simp at h
  | cons x t ih =>
    intro i h
    cases i with
    | zero => rfl
    | succ i' => simpa using ih i' (by simpa using h)


theorem sortedBy_cons {k : Mahasiswa → List Char} {a : Mahasiswa} {l : List Mahasiswa} :
    SortedBy k (a :: l) ↔ (∀ z ∈ l, k a ≤ k z) ∧ SortedBy k l :=
  List.pairwise_cons

/-! ### Insertion sort -/

theorem insertKey_perm (k : Mahasiswa → List Char) :
    ∀ (l : List Mahasiswa) (x : Mahasiswa), (insertKey k x l).Perm (x :: l) := by
  intro l
  induction l with
  | nil => intro x; exact List.Perm.refl _
  | cons y ys ih =>
    intro x
    unfold insertKey
    by_cases h : k x < k y
    · rw [if_pos h]
    · rw [if_neg h]
      refine List.Perm.trans (List.Perm.cons y (ih x)) ?_
      exact List.Perm.swap x y ys

theorem insertKey_sorted (k : Mahasiswa → List Char) :
    ∀ (l : List Mahasiswa) (x : Mahasiswa), SortedBy k l → SortedBy k (insertKey k x l) := by
  intro l
  induction l with
  | nil => intro x _; simp [insertKey]
  | cons y ys ih =>
    intro x hs
    rw [sortedBy_cons] at hs
    unfold insertKey
    by_cases h : k x < k y
    · rw [if_pos h, sortedBy_cons]
      constructor
      · intro z hz
        rcases List.mem_cons.mp hz with rfl | hz2
        · exact le_of_lt h
        · exact le_trans (le_of_lt h) (hs.1 z hz2)
      · exact sortedBy_cons.mpr hs
    · rw [if_neg h, sortedBy_cons]
      constructor
      · intro z hz
        have hz' := (insertKey_perm k ys x).mem_iff.mp hz
        rcases List.mem_cons.mp hz' with rfl | hz2
        · exact le_of_not_lt h
        · exact hs.1 z hz2
      · exact ih x hs.2

theorem insertKey_append_big (k : Mahasiswa → List Char) :
    ∀ (p : List Mahasiswa) (a x : Mahasiswa), k x < k a →
      insertKey k x (p ++ [a]) = insertKey k x p ++ [a] := by
  intro p
  induction p with
  | nil => intro a x h; simp [insertKey, h]
  | cons y ys ih =>
    intro a x h
    by_cases hxy : k x < k y
    · simp [insertKey, hxy]
    · simp [insertKey, hxy, ih a x h]

theorem insertKey_extends (k : Mahasiswa → List Char) :
    ∀ (p : List Mahasiswa) (x : Mahasiswa), (∀ y ∈ p, ¬ k x < k y) →
      insertKey k x p = p ++ [x] := by
  intro p
  induction p with
  | nil => intro x _; rfl
  | cons y ys ih =>
    intro x h
    have hy : ¬ k x < k y := h y (by simp)
    simp [insertKey, hy, ih x (fun z hz => h z (by simp [hz]))]

theorem insFold_perm (k : Mahasiswa → List Char) :
    ∀ (l acc : List Mahasiswa), (insFold k acc l).Perm (acc ++ l) := by
  intro l
  induction l with
  | nil => intro acc; simp [insFold]
  | cons x xs ih =>
    intro acc
    show (insFold k (insertKey k x acc) xs).Perm _
    refine List.Perm.trans (ih (insertKey k x acc)) ?_
    refine List.Perm.trans (List.Perm.append_right xs (insertKey_perm k acc x)) ?_
    exact List.perm_middle.symm

theorem insFold_sorted (k : Mahasiswa → List Char) :
    ∀ (l acc : List Mahasiswa), SortedBy k acc → SortedBy k (insFold k acc l) := by
  intro l
  induction l with
  | nil => intro acc h; exact h
  | cons x xs ih =>
    intro acc h
    exact ih (insertKey k x acc) (insertKey_sorted k acc x h)

theorem insertion_sort_perm (byK : String) (data : List Mahasiswa) :
    (insertion_sort byK data).Perm data := by
  simpa using insFold_perm (keyOf byK) data []

theorem insertion_sort_sorted (byK : String) (data : List Mahasiswa) :
    SortedBy (keyOf byK) (insertion_sort byK data) :=
  insFold_sorted (keyOf byK) data [] (by simp)

/-! ### Merge sort -/

theorem mergeByF_perm (k : Mahasiswa → List Char) :
    ∀ (fuel : Nat) (l r : List Mahasiswa), (mergeByF k fuel l r).Perm (l ++ r) := by
  intro fuel
  induction fuel with
  | zero => intro l r; exact List.Perm.refl _
  | succ f ih =>
    intro l r
    rcases l with _ | ⟨a, ls⟩
    · simp [mergeByF]
    rcases r with _ | ⟨b, rs⟩
    · simp [mergeByF]
    by_cases h : k a ≤ k b
    · rw [show mergeByF k (f + 1) (a :: ls) (b :: rs) = a :: mergeByF k f ls (b :: rs) from by
        simp [mergeByF, h]]
      exact List.Perm.cons a (ih ls (b :: rs))
    · rw [show mergeByF k (f + 1) (a :: ls) (b :: rs) = b :: mergeByF k f (a :: ls) rs from by
        simp [mergeByF, h]]
      refine List.Perm.trans (List.Perm.cons b (ih (a :: ls) rs)) ?_
      exact List.perm_middle.symm

theorem mergeByF_sorted (k : Mahasiswa → List Char) :
    ∀ (fuel : Nat) (l r : List Mahasiswa), l.length + r.length ≤ fuel →
      SortedBy k l → SortedBy k r → SortedBy k (mergeByF k fuel l r) := by
  intro fuel
  induction fuel with
  | zero =>
    intro l r hf hl hr
    have hle : l = [] := List.length_eq_zero.mp (by omega)
    have hre : r = [] := List.length_eq_zero.mp (by omega)
    subst hle
    subst hre
    simp [mergeByF]
  | succ f ih =>
    intro l r hf hl hr
    rcases l with _ | ⟨a, ls⟩
    · simpa [mergeByF] using hr
    rcases r with _ | ⟨b, rs⟩
    · simpa [mergeByF] using hl
    have hla : ∀ z ∈ ls, k a ≤ k z := (List.pairwise_cons.mp hl).1
    have hls : SortedBy k ls := (List.pairwise_cons.mp hl).2
    have hrb : ∀ z ∈ rs, k b ≤ k z := (List.pairwise_cons.mp hr).1
    have hrs : SortedBy k rs := (List.pairwise_cons.mp hr).2
    have hf' : ls.length + (b :: rs).length ≤ f := by
      simp only [List.length_cons] at hf ⊢
      omega
    have hf'' : (a :: ls).length + rs.length ≤ f := by
      simp only [List.length_cons] at hf ⊢
      omega
    by_cases h : k a ≤ k b
    · rw [show mergeByF k (f + 1) (a :: ls) (b :: rs) = a :: mergeByF k f ls (b :: rs) from by
        simp [mergeByF, h]]
      rw [sortedBy_cons]
      constructor
      · intro z hz
        have hz' := (mergeByF_perm k f ls (b :: rs)).mem_iff.mp hz
        rcases List.mem_append.mp hz' with hz1 | hz2
        · exact hla z hz1
        · rcases List.mem_cons.mp hz2 with rfl | hz3
          · exact h
          · exact le_trans h (hrb z hz3)
      · exact ih ls (b :: rs) hf' hls hr
    · rw [show mergeByF k (f + 1) (a :: ls) (b :: rs) = b :: mergeByF k f (a :: ls) rs from by
        simp [mergeByF, h]]
      rw [sortedBy_cons]
      have hba : k b ≤ k a := le_of_not_le h
      constructor
      · intro z hz
        have hz' := (mergeByF_perm k f (a :: ls) rs).mem_iff.mp hz
        rcases List.mem_append.mp hz' with hz1 | hz2
        · rcases List.mem_cons.mp hz1 with rfl | hz3
          · exact hba
          · exact le_trans hba (hla z hz3)
        · exact hrb z hz2
      · exact ih (a :: ls) rs hf'' hl hrs

theorem msFuel_perm (k : Mahasiswa → List Char) :
    ∀ (fuel : Nat) (data : List Mahasiswa), (msFuel k fuel data).Perm data := by
  intro fuel
  induction fuel with
  | zero => intro data; exact List.Perm.refl _
  | succ f ih =>
    intro data
    by_cases h : data.length ≤ 1
    · simp [msFuel, h]
    · have h1 := ih (data.take (data.length / 2))
      have h2 := ih (data.drop (data.length / 2))
      have h4 : (msFuel k f (data.take (data.length / 2))
          ++ msFuel k f (data.drop (data.length / 2))).Perm data := by
        refine List.Perm.trans (List.Perm.append h1 h2) ?_
        rw [List.take_append_drop]
      simp only [msFuel]
      rw [if_neg h]
      exact (mergeByF_perm k _ _ _).trans h4

theorem msFuel_sorted (k : Mahasiswa → List Char) :
    ∀ (fuel : Nat) (data : List Mahasiswa), data.length ≤ fuel →
      SortedBy k (msFuel k fuel data) := by
  intro fuel
  induction fuel with
  | zero =>
    intro data hf
    have hde : data = [] := List.length_eq_zero.mp (by omega)
    subst hde
    simp [msFuel]
  | succ f ih =>
    intro data hf
    by_cases h : data.length ≤ 1
    · rcases data with _ | ⟨a, _ | ⟨b, t⟩⟩
      · simp [msFuel]
      · simp [msFuel]
      · simp at h
    · have hlen2 : 2 ≤ data.length := by omega
      have hts : (data.take (data.length / 2)).length ≤ f := by
        rw [List.length_take]
        omega
      have hds : (data.drop (data.length / 2)).length ≤ f := by
        rw [List.length_drop]
        omega
      have hs1 := ih (data.take (data.length / 2)) hts
      have hs2 := ih (data.drop (data.length / 2)) hds
      simp only [msFuel]
      rw [if_neg h]
      exact mergeByF_sorted k _ _ _ (le_refl _) hs1 hs2

theorem merge_sort_perm (byK : String) (data : List Mahasiswa) :
    (merge_sort byK data).Perm data :=
  msFuel_perm (keyOf byK) data.length data

theorem merge_sort_sorted (byK : String) (data : List Mahasiswa) :
    SortedBy (keyOf byK) (merge_sort byK data) :=
  msFuel_sorted (keyOf byK) data.length data (le_refl _)

/-! ### Bubble sort -/

theorem bpass_zero (k : Mahasiswa → List Char) (l : List Mahasiswa) : bpass k 0 l = l := by
  cases l <;> rfl

theorem bpass_perm (k : Mahasiswa → List Char) :
    ∀ (c : Nat) (l : List Mahasiswa), (bpass k c l).Perm l := by
  intro c
  induction c with
  | zero => intro l; exact List.Perm.refl _
  | succ c ih =>
    intro l
    rcases l with _ | ⟨a, _ | ⟨b, rest⟩⟩
    · exact List.Perm.refl _
    · exact List.Perm.refl _
    · by_cases h : k a > k b
      · rw [show bpass k (c + 1) (a :: b :: rest) = b :: bpass k c (a :: rest) from by
          simp [bpass, h]]
        refine List.Perm.trans (List.Perm.cons b (ih (a :: rest))) ?_
        exact List.Perm.swap a b rest
      · rw [show bpass k (c + 1) (a :: b :: rest) = a :: bpass k c (b :: rest) from by
          simp [bpass, h]]
        exact List.Perm.cons a (ih (b :: rest))

theorem bpass_drop (k : Mahasiswa → List Char) :
    ∀ (c : Nat) (l : List Mahasiswa), (bpass k c l).drop (c + 1) = l.drop (c + 1) := by
  intro c
  induction c with
  | zero => intro l; rfl
  | succ c ih =>
    intro l
    rcases l with _ | ⟨a, _ | ⟨b, rest⟩⟩
    · rfl
    · rfl
    · by_cases h : k a > k b
      · rw [show bpass k (c + 1) (a :: b :: rest) = b :: bpass k c (a :: rest) from by
          simp [bpass, h]]
        simp only [List.drop_succ_cons]
        rw [ih (a :: rest)]
        simp only [List.drop_succ_cons]
      · rw [show bpass k (c + 1) (a :: b :: rest) = a :: bpass k c (b :: rest) from by
          simp [bpass, h]]
        simp only [List.drop_succ_cons]
        rw [ih (b :: rest)]
        simp only [List.drop_succ_cons]

theorem bpass_spec (k : Mahasiswa → List Char) :
    ∀ (r : Nat) (l : List Mahasiswa),
      SortedBy k (l.drop (r + 1)) →
      (∀ x ∈ l.take (r + 1), ∀ y ∈ l.drop (r + 1), k x ≤ k y) →
      SortedBy k ((bpass k r l).drop r) ∧
      (∀ x ∈ l.take (r + 1), ∀ y ∈ (bpass k r l).drop r, k x ≤ k y) := by
  intro r
  induction r with
  | zero =>
    intro l hs hd
    rcases l with _ | ⟨a, t⟩
    · exact ⟨by rw [bpass_zero]; simp, by intro x hx; simp at hx⟩
    · constructor
      · show SortedBy k (a :: t)
        rw [sortedBy_cons]
        constructor
        · intro z hz
          exact hd a (by simp) z (by simpa using hz)
        · simpa using hs
      · intro x hx y hy
        have hxa : x = a := by simpa using hx
        subst hxa
        have hy' : y = x ∨ y ∈ t := by
          rw [bpass_zero] at hy
          simpa using hy
        rcases hy' with rfl | hy2
        · exact le_refl _
        · exact hd x (by simp) y (by simpa using hy2)
  | succ s ih =>
    intro l hs hd
    rcases l with _ | ⟨a, _ | ⟨b, t⟩⟩
    · exact ⟨by rw [show bpass k (s + 1) [] = [] from rfl]; simp,
        by intro x hx; simp at hx⟩
    · constructor
      · rw [show bpass k (s + 1) [a] = [a] from rfl]
        simp
      · intro x hx y hy
        rw [show bpass k (s + 1) [a] = [a] from rfl] at hy
        rw [List.drop_succ_cons, List.drop_nil] at hy
        simp at hy
    · by_cases hab : k a > k b
      · have huv : k b ≤ k a := le_of_lt hab
        have heq : bpass k (s + 1) (a :: b :: t) = b :: bpass k s (a :: t) := by
          simp [bpass, hab]
        have hs' : SortedBy k ((a :: t).drop (s + 1)) := by simpa using hs
        have hd' : ∀ x ∈ (a :: t).take (s + 1), ∀ y ∈ (a :: t).drop (s + 1), k x ≤ k y := by
          intro x hx y hy
          rw [List.take_succ_cons] at hx
          rcases List.mem_cons.mp hx with rfl | hx2
          · exact hd x (by simp) y (by simpa using hy)
          · exact hd x (by simp [List.mem_cons, hx2]) y (by simpa using hy)
        have ihres := ih (a :: t) hs' hd'
        constructor
        · rw [heq, List.drop_succ_cons]
          exact ihres.1
        · intro x hx y hy
          rw [heq, List.drop_succ_cons] at hy
          rw [List.take_succ_cons, List.take_succ_cons] at hx
          have hay : k a ≤ k y := ihres.2 a (by simp) y hy
          rcases List.mem_cons.mp hx with rfl | hx2
          · exact hay
          rcases List.mem_cons.mp hx2 with rfl | hx3
          · exact le_trans huv hay
          · exact ihres.2 x (by simp [List.mem_cons, hx3]) y hy
      · have hba : k a ≤ k b := le_of_not_lt hab
        have heq : bpass k (s + 1) (a :: b :: t) = a :: bpass k s (b :: t) := by
          simp [bpass, hab]
        have hs' : SortedBy k ((b :: t).drop (s + 1)) := by simpa using hs
        have hd' : ∀ x ∈ (b :: t).take (s + 1), ∀ y ∈ (b :: t).drop (s + 1), k x ≤ k y := by
          intro x hx y hy
          rw [List.take_succ_cons] at hx
          rcases List.mem_cons.mp hx with rfl | hx2
          · exact hd x (by simp) y (by simpa using hy)
          · exact hd x (by simp [List.mem_cons, hx2]) y (by simpa using hy)
        have ihres := ih (b :: t) hs' hd'
        constructor
        · rw [heq, List.drop_succ_cons]
          exact ihres.1
        · intro x hx y hy
          rw [heq, List.drop_succ_cons] at hy
          rw [List.take_succ_cons, List.take_succ_cons] at hx
          have hby : k b ≤ k y := ihres.2 b (by simp) y hy
          rcases List.mem_cons.mp hx with rfl | hx2
          · exact le_trans hba hby
          rcases List.mem_cons.mp hx2 with rfl | hx3
          · exact hby
          · exact ihres.2 x (by simp [List.mem_cons, hx3]) y hy

theorem bubbleIter_spec (k : Mahasiswa → List Char) :
    ∀ (r : Nat) (l : List Mahasiswa),
      SortedBy k (l.drop r) →
      (∀ x ∈ l.take r, ∀ y ∈ l.drop r, k x ≤ k y) →
      (bubbleIter k r (r - 1) l).Perm l ∧ SortedBy k (bubbleIter k r (r - 1) l) := by
  intro r
  induction r with
  | zero =>
    intro l hs _
    exact ⟨List.Perm.refl _, by simpa using hs⟩
  | succ s ih =>
    intro l hs hd
    have hstep : bubbleIter k (s + 1) (s + 1 - 1) l = bubbleIter k s (s - 1) (bpass k s l) := rfl
    have hspec := bpass_spec k s l hs hd
    have hperm : (bpass k s l).Perm l := bpass_perm k s l
    have hdrop : (bpass k s l).drop (s + 1) = l.drop (s + 1) := bpass_drop k s l
    have hptake : ((bpass k s l).take (s + 1)).Perm (l.take (s + 1)) := by
      have h1 : ((bpass k s l).take (s + 1) ++ l.drop (s + 1)).Perm
          (l.take (s + 1) ++ l.drop (s + 1)) := by
        conv_lhs => rw [← hdrop]
        rw [List.take_append_drop, List.take_append_drop]
        exact hperm
      exact (List.perm_append_right_iff _).mp h1
    have htake : ∀ x ∈ (bpass k s l).take s, x ∈ l.take (s + 1) := by
      intro x hx
      have hx1 : x ∈ (bpass k s l).take (s + 1) := by
        have he : (bpass k s l).take s = ((bpass k s l).take (s + 1)).take s := by
          rw [List.take_take, Nat.min_eq_left (by omega)]
        rw [he] at hx
        exact List.mem_of_mem_take hx
      exact hptake.mem_iff.mp hx1
    have hres := ih (bpass k s l) hspec.1
      (fun x hx y hy => hspec.2 x (htake x hx) y hy)
    rw [hstep]
    exact ⟨(hres.1).trans hperm, hres.2⟩

theorem bubble_sort_perm (byK : String) (data : List Mahasiswa) :
    (bubble_sort byK data).Perm data := by
  have h := bubbleIter_spec (keyOf byK) data.length data
    (by rw [List.drop_length]; simp)
    (by intro x _ y hy; rw [List.drop_length] at hy; exact absurd hy (List.not_mem_nil y))
  exact h.1

theorem bubble_sort_sorted (byK : String) (data : List Mahasiswa) :
    SortedBy (keyOf byK) (bubble_sort byK data) := by
  have h := bubbleIter_spec (keyOf byK) data.length data
    (by rw [List.drop_length]; simp)
    (by intro x _ y hy; rw [List.drop_length] at hy; exact absurd hy (List.not_mem_nil y))
  exact h.2

/-! ### Selection sort -/

theorem findMin_min (k : Mahasiswa → List Char) :
    ∀ (xs : List Mahasiswa) (cur : Mahasiswa) (ci j : Nat),
      k (findMin k cur ci j xs).1 ≤ k cur
      ∧ ∀ x ∈ xs, k (findMin k cur ci j xs).1 ≤ k x := by
  intro xs
  induction xs with
  | nil => intro cur ci j; exact ⟨le_refl _, by intro x hx; simp at hx⟩
  | cons x rest ih =>
    intro cur ci j
    unfold findMin
    by_cases h : k cur > k x
    · rw [if_pos h]
      have hr := ih x j (j + 1)
      refine ⟨le_trans hr.1 (le_of_lt h), ?_⟩
      intro z hz
      rcases List.mem_cons.mp hz with rfl | hz2
      · exact hr.1
      · exact hr.2 z hz2
    · rw [if_neg h]
      have hr := ih cur ci (j + 1)
      refine ⟨hr.1, ?_⟩
      intro z hz
      rcases List.mem_cons.mp hz with rfl | hz2
      · exact le_trans hr.1 (le_of_not_lt h)
      · exact hr.2 z hz2

theorem findMin_loc (k : Mahasiswa → List Char) :
    ∀ (xs : List Mahasiswa) (cur : Mahasiswa) (ci j : Nat),
      findMin k cur ci j xs = (cur, ci)
      ∨ ∃ t, t < xs.length ∧ (findMin k cur ci j xs).2 = j + t
          ∧ xs.getD t mhs0 = (findMin k cur ci j xs).1 := by
  intro xs
  induction xs with
  | nil => intro cur ci j; exact Or.inl rfl
  | cons x rest ih =>
    intro cur ci j
    unfold findMin
    by_cases h : k cur > k x
    · rw [if_pos h]
      rcases ih x j (j + 1) with heq | ⟨t, ht, h2, h1⟩
      · refine Or.inr ⟨0, by simp, ?_, ?_⟩
        · rw [heq]
          rfl
        · rw [heq]
          rfl
      · refine Or.inr ⟨t + 1, by simp only [List.length_cons]; omega, ?_, ?_⟩
        · rw [h2]
          omega
        · simpa using h1
    · rw [if_neg h]
      rcases ih cur ci (j + 1) with heq | ⟨t, ht, h2, h1⟩
      · exact Or.inl heq
      · refine Or.inr ⟨t + 1, by simp only [List.length_cons]; omega, ?_, ?_⟩
        · rw [h2]
          omega
        · simpa using h1

theorem selSortFuel_spec (k : Mahasiswa → List Char) :
    ∀ (fuel : Nat) (l : List Mahasiswa), l.length ≤ fuel →
      (selSortFuel k fuel l).Perm l ∧ SortedBy k (selSortFuel k fuel l) := by
  intro fuel
  induction fuel with
  | zero =>
    intro l hf
    have hle : l = [] := List.length_eq_zero.mp (by omega)
    subst hle
    exact ⟨List.Perm.refl _, by simp [selSortFuel]⟩
  | succ f ih =>
    intro l hf
    rcases l with _ | ⟨a, xs⟩
    · exact ⟨List.Perm.refl _, by rw [show selSortFuel k (f + 1) [] = [] from rfl]; simp⟩
    · have hlen : xs.length ≤ f := by simpa using hf
      have hmin := findMin_min k xs a 0 1
      rcases findMin_loc k xs a 0 1 with heq | ⟨t, ht, h2, h1⟩
      · have hbr : selSortFuel k (f + 1) (a :: xs) = a :: selSortFuel k f xs := by
          simp [selSortFuel, heq]
        have hres := ih xs hlen
        constructor
        · rw [hbr]
          exact List.Perm.cons a hres.1
        · rw [hbr, sortedBy_cons]
          refine ⟨?_, hres.2⟩
          intro z hz
          have hz' : z ∈ xs := (hres.1).mem_iff.mp hz
          have hza := hmin.2 z hz'
          rw [heq] at hza
          exact hza
      · have hne : ¬ (findMin k a 0 1 xs).2 = 0 := by
          rw [h2]
          omega
        have hbr : selSortFuel k (f + 1) (a :: xs)
            = (findMin k a 0 1 xs).1 :: selSortFuel k f (xs.set t a) := by
          have hidx : (findMin k a 0 1 xs).2 - 1 = t := by omega
          simp only [selSortFuel, if_neg hne, hidx]
        have hperm0 : (a :: xs).Perm ((findMin k a 0 1 xs).1 :: xs.set t a) := by
          rw [← h1]
          exact getset_perm xs t a ht
        have hlen2 : (xs.set t a).length ≤ f := by simpa using hlen
        have hres := ih (xs.set t a) hlen2
        constructor
        · rw [hbr]
          exact (List.Perm.cons _ hres.1).trans hperm0.symm
        · rw [hbr, sortedBy_cons]
          refine ⟨?_, hres.2⟩
          intro z hz
          have hz1 : z ∈ xs.set t a := (hres.1).mem_iff.mp hz
          have hz2 : z ∈ (findMin k a 0 1 xs).1 :: xs.set t a := List.mem_cons_of_mem _ hz1
          have hz3 : z ∈ a :: xs := hperm0.symm.mem_iff.mp hz2
          rcases List.mem_cons.mp hz3 with rfl | hz4
          · exact hmin.1
          · exact hmin.2 z hz4

theorem selection_sort_perm (byK : String) (data : List Mahasiswa) :
    (selection_sort byK data).Perm data :=
  (selSortFuel_spec (keyOf byK) data.length data (le_refl _)).1

theorem selection_sort_sorted (byK : String) (data : List Mahasiswa) :
    SortedBy (keyOf byK) (selection_sort byK data) :=
  (selSortFuel_spec (keyOf byK) data.length data (le_refl _)).2

/-! ### Shell sort -/

theorem set_eq_take_cons_drop : ∀ (l : List Mahasiswa) (j : Nat) (x : Mahasiswa),
    j < l.length → l.set j x = l.take j ++ x :: l.drop (j + 1) := by
  intro l
  induction l with
  | nil => intro j x h; simp at h
  | cons a t ih =>
    intro j x h
    cases j with
    | zero => rfl
    | succ j' => simp [ih j' x (by simpa using h)]

theorem shellWhileF_spec (k : Mahasiswa → List Char) (gap : Nat) :
    ∀ (fuel : Nat) (l : List Mahasiswa) (temp : Mahasiswa) (j : Nat), j < l.length →
      (shellWhileF k gap fuel l temp j).2 ≤ j
      ∧ (shellWhileF k gap fuel l temp j).1.length = l.length
      ∧ ((shellWhileF k gap fuel l temp j).1.set (shellWhileF k gap fuel l temp j).2 temp).Perm
          (l.set j temp) := by
  intro fuel
  induction fuel with
  | zero =>
    intro l temp j _
    exact ⟨le_refl _, rfl, List.Perm.refl _⟩
  | succ f ih =>
    intro l temp j hj
    by_cases hc : gap ≤ j ∧ 0 < gap ∧ k (l.getD (j - gap) mhs0) > k temp
    · have hstep : shellWhileF k gap (f + 1) l temp j
          = shellWhileF k gap f (l.set j (l.getD (j - gap) mhs0)) temp (j - gap) := by
        simp only [shellWhileF, if_pos hc]
      have hjg : j - gap < (l.set j (l.getD (j - gap) mhs0)).length := by
        simp only [List.length_set]
        omega
      have hr := ih (l.set j (l.getD (j - gap) mhs0)) temp (j - gap) hjg
      rw [hstep]
      refine ⟨le_trans hr.1 (by omega), by rw [hr.2.1]; simp, ?_⟩
      refine hr.2.2.trans ?_
      exact set_set_perm l (j - gap) j temp (by omega) hj
    · have hstep : shellWhileF k gap (f + 1) l temp j = (l, j) := by
        simp only [shellWhileF, if_neg hc]
      rw [hstep]
      exact ⟨le_refl _, rfl, List.Perm.refl _⟩

theorem shellPassAux_perm (k : Mahasiswa → List Char) (gap : Nat) :
    ∀ (r i : Nat) (l : List Mahasiswa), i + r ≤ l.length →
      (shellPassAux k gap r i l).Perm l
      ∧ (shellPassAux k gap r i l).length = l.length := by
  intro r
  induction r with
  | zero => intro i l _; exact ⟨List.Perm.refl _, rfl⟩
  | succ r ih =>
    intro i l hle
    have hi : i < l.length := by omega
    have hstep : shellPassAux k gap (r + 1) i l
        = shellPassAux k gap r (i + 1)
          ((shellWhileF k gap i l (l.getD i mhs0) i).1.set
            (shellWhileF k gap i l (l.getD i mhs0) i).2 (l.getD i mhs0)) := rfl
    have hw := shellWhileF_spec k gap i l (l.getD i mhs0) i hi
    have hperm1 : ((shellWhileF k gap i l (l.getD i mhs0) i).1.set
        (shellWhileF k gap i l (l.getD i mhs0) i).2 (l.getD i mhs0)).Perm l := by
      refine hw.2.2.trans ?_
      rw [set_getD_eta l i hi]
    have hlen1 : ((shellWhileF k gap i l (l.getD i mhs0) i).1.set
        (shellWhileF k gap i l (l.getD i mhs0) i).2 (l.getD i mhs0)).length = l.length := by
      simp only [List.length_set]
      exact hw.2.1
    have hrec := ih (i + 1)
      ((shellWhileF k gap i l (l.getD i mhs0) i).1.set
        (shellWhileF k gap i l (l.getD i mhs0) i).2 (l.getD i mhs0))
      (by rw [hlen1]; omega)
    rw [hstep]
    exact ⟨(hrec.1).trans hperm1, by rw [hrec.2, hlen1]⟩

theorem shellWhile1_insert (k : Mahasiswa → List Char) :
    ∀ (fuel : Nat) (j : Nat) (l : List Mahasiswa) (x : Mahasiswa), j ≤ fuel → j < l.length →
      SortedBy k (l.take j) →
      (shellWhileF k 1 fuel l x j).1.set (shellWhileF k 1 fuel l x j).2 x
        = insertKey k x (l.take j) ++ l.drop (j + 1) := by
  intro fuel
  induction fuel with
  | zero =>
    intro j l x hjf hj _
    have hj0 : j = 0 := by omega
    subst hj0
    show l.set 0 x = insertKey k x (l.take 0) ++ l.drop 1
    rcases l with _ | ⟨a, t⟩
    · simp at hj
    · simp [insertKey]
  | succ f ih =>
    intro j l x hjf hj hs
    rcases Nat.eq_zero_or_pos j with hj0 | hjpos
    · subst hj0
      have hcond : ¬ (1 ≤ 0 ∧ 0 < 1 ∧ k (l.getD (0 - 1) mhs0) > k x) :=
        fun hcon => absurd hcon.1 (by omega)
      have hstep : shellWhileF k 1 (f + 1) l x 0 = (l, 0) := by
        simp only [shellWhileF, if_neg hcond]
      rw [hstep]
      show l.set 0 x = insertKey k x (l.take 0) ++ l.drop 1
      rcases l with _ | ⟨a, t⟩
      · simp at hj
      · simp [insertKey]
    · by_cases hgt : k (l.getD (j - 1) mhs0) > k x
      · have hcond : 1 ≤ j ∧ 0 < 1 ∧ k (l.getD (j - 1) mhs0) > k x := ⟨hjpos, by omega, hgt⟩
        have hstep : shellWhileF k 1 (f + 1) l x j
            = shellWhileF k 1 f (l.set j (l.getD (j - 1) mhs0)) x (j - 1) := by
          simp only [shellWhileF, if_pos hcond]
        have hlen' : j - 1 < (l.set j (l.getD (j - 1) mhs0)).length := by
          simp only [List.length_set]
          omega
        have htk : (l.set j (l.getD (j - 1) mhs0)).take (j - 1) = l.take (j - 1) :=
          take_set_of_le l j (j - 1) _ (by omega)
        have hsorted' : SortedBy k ((l.set j (l.getD (j - 1) mhs0)).take (j - 1)) := by
          rw [htk]
          have hpref : l.take (j - 1) = (l.take j).take (j - 1) := by
            rw [List.take_take, Nat.min_eq_left (by omega)]
          rw [hpref]
          exact hs.sublist (List.take_sublist _ _)
        have hih := ih (j - 1) (l.set j (l.getD (j - 1) mhs0)) x (by omega) hlen' hsorted'
        rw [hstep, hih, htk]
        have hdropset : (l.set j (l.getD (j - 1) mhs0)).drop (j - 1 + 1)
            = l.getD (j - 1) mhs0 :: l.drop (j + 1) := by
          have hj1 : j - 1 + 1 = j := by omega
          rw [hj1]
          exact drop_set_self l j _ hj
        rw [hdropset]
        have htj : l.take j = l.take (j - 1) ++ [l.getD (j - 1) mhs0] := by
          have hj1 : j - 1 + 1 = j := by omega
          rw [← hj1]
          exact take_succ_getD l (j - 1) (by omega)
        rw [htj, insertKey_append_big k _ _ _ hgt, List.append_assoc]
        rfl
      · have hcond : ¬ (1 ≤ j ∧ 0 < 1 ∧ k (l.getD (j - 1) mhs0) > k x) :=
          fun hcon => hgt hcon.2.2
        have hstep : shellWhileF k 1 (f + 1) l x j = (l, j) := by
          simp only [shellWhileF, if_neg hcond]
        rw [hstep]
        show l.set j x = insertKey k x (l.take j) ++ l.drop (j + 1)
        have ha : k (l.getD (j - 1) mhs0) ≤ k x := le_of_not_lt hgt
        have htj : l.take j = l.take (j - 1) ++ [l.getD (j - 1) mhs0] := by
          have hj1 : j - 1 + 1 = j := by omega
          rw [← hj1]
          exact take_succ_getD l (j - 1) (by omega)
        have hmemle : ∀ y ∈ l.take j, k y ≤ k (l.getD (j - 1) mhs0) := by
          intro y hy
          have hs' : SortedBy k (l.take (j - 1) ++ [l.getD (j - 1) mhs0]) := by
            rw [← htj]
            exact hs
          have hpa := List.pairwise_append.mp hs'
          rw [htj] at hy
          rcases List.mem_append.mp hy with hy1 | hy2
          · exact hpa.2.2 y hy1 _ (by simp)
          · have hye : y = l.getD (j - 1) mhs0 := by simpa using hy2
            rw [hye]
        have hext : insertKey k x (l.take j) = l.take j ++ [x] :=
          insertKey_extends k _ x (fun y hy => not_lt.mpr (le_trans (hmemle y hy) ha))
        rw [hext, set_eq_take_cons_drop l j x hj, List.append_assoc]
        rfl

theorem shellPassAux1_insFold (k : Mahasiswa → List Char) :
    ∀ (r i : Nat) (l : List Mahasiswa), 1 ≤ i → i + r = l.length → SortedBy k (l.take i) →
      shellPassAux k 1 r i l = insFold k (l.take i) (l.drop i) := by
  intro r
  induction r with
  | zero =>
    intro i l _ hir _
    have hieq : i = l.length := by omega
    show l = insFold k (l.take i) (l.drop i)
    rw [hieq, List.take_length, List.drop_length]
    rfl
  | succ r ih =>
    intro i l h1 hir hs
    have hi : i < l.length := by omega
    have hstep : shellPassAux k 1 (r + 1) i l
        = shellPassAux k 1 r (i + 1)
          ((shellWhileF k 1 i l (l.getD i mhs0) i).1.set
            (shellWhileF k 1 i l (l.getD i mhs0) i).2 (l.getD i mhs0)) := rfl
    have hE := shellWhile1_insert k i i l (l.getD i mhs0) (le_refl _) hi hs
    have hlenIns : (insertKey k (l.getD i mhs0) (l.take i)).length = i + 1 := by
      rw [(insertKey_perm k (l.take i) (l.getD i mhs0)).length_eq]
      simp only [List.length_cons, List.length_take]
      omega
    have htake' : (insertKey k (l.getD i mhs0) (l.take i) ++ l.drop (i + 1)).take (i + 1)
        = insertKey k (l.getD i mhs0) (l.take i) := by
      rw [← hlenIns, List.take_left]
    have hdrop' : (insertKey k (l.getD i mhs0) (l.take i) ++ l.drop (i + 1)).drop (i + 1)
        = l.drop (i + 1) := by
      rw [← hlenIns, List.drop_left]
    have hsorted' : SortedBy k
        ((insertKey k (l.getD i mhs0) (l.take i) ++ l.drop (i + 1)).take (i + 1)) := by
      rw [htake']
      exact insertKey_sorted k _ _ hs
    have hlenL : (insertKey k (l.getD i mhs0) (l.take i) ++ l.drop (i + 1)).length
        = l.length := by
      simp only [List.length_append, hlenIns, List.length_drop]
      omega
    have hih := ih (i + 1) (insertKey k (l.getD i mhs0) (l.take i) ++ l.drop (i + 1))
      (by omega) (by rw [hlenL]; omega) hsorted'
    rw [hstep, hE, hih, htake', hdrop']
    have hdropi : l.drop i = l.getD i mhs0 :: l.drop (i + 1) := by
      rw [List.getD_eq_getElem _ _ hi]
      exact List.drop_eq_getElem_cons hi
    rw [hdropi]
    rfl

theorem shellPass1_eq_insertion (k : Mahasiswa → List Char) :
    ∀ (l : List Mahasiswa), shellPassAux k 1 (l.length - 1) 1 l = insFold k [] l := by
  intro l
  rcases l with _ | ⟨a, t⟩
  · rfl
  · have h := shellPassAux1_insFold k ((a :: t).length - 1) 1 (a :: t) (le_refl _)
      (by simp only [List.length_cons]; omega) (by simp)
    rw [h]
    rfl

theorem shellGapsF_spec (k : Mahasiswa → List Char) :
    ∀ (fuel gap : Nat) (l : List Mahasiswa), gap ≤ fuel → 0 < gap →
      ∃ l₀, l.Perm l₀ ∧ shellGapsF k fuel gap l = insFold k [] l₀ := by
  intro fuel
  induction fuel with
  | zero => intro gap l hg h0; omega
  | succ f ih =>
    intro gap l hg h0
    have hne : ¬ gap = 0 := by omega
    have hstep : shellGapsF k (f + 1) gap l
        = shellGapsF k f (gap / 2) (shellPassAux k gap (l.length - gap) gap l) := by
      simp only [shellGapsF, if_neg hne]
    by_cases hone : gap = 1
    · subst hone
      have hzero : shellGapsF k f 0 (shellPassAux k 1 (l.length - 1) 1 l)
          = shellPassAux k 1 (l.length - 1) 1 l := by
        cases f with
        | zero => rfl
        | succ f' => simp [shellGapsF]
      refine ⟨l, List.Perm.refl _, ?_⟩
      rw [hstep, show (1 : Nat) / 2 = 0 from rfl, hzero, shellPass1_eq_insertion]
    · have hpass : (shellPassAux k gap (l.length - gap) gap l).Perm l
          ∧ (shellPassAux k gap (l.length - gap) gap l).length = l.length := by
        by_cases hgl : gap ≤ l.length
        · exact shellPassAux_perm k gap (l.length - gap) gap l (by omega)
        · have hz : l.length - gap = 0 := by omega
          rw [hz]
          exact ⟨List.Perm.refl _, rfl⟩
      obtain ⟨l₀, hp0, he0⟩ := ih (gap / 2) (shellPassAux k gap (l.length - gap) gap l)
        (by omega) (by omega)
      refine ⟨l₀, (hpass.1.symm).trans hp0, ?_⟩
      rw [hstep]
      exact he0

theorem shell_sort_perm (byK : String) (data : List Mahasiswa) :
    (shell_sort byK data).Perm data := by
  by_cases h : data.length / 2 = 0
  · unfold shell_sort
    rw [h]
    exact List.Perm.refl data
  · obtain ⟨l₀, hp, he⟩ := shellGapsF_spec (keyOf byK) (data.length / 2) (data.length / 2)
      data (le_refl _) (by omega)
    show (shellGapsF (keyOf byK) (data.length / 2) (data.length / 2) data).Perm data
    rw [he]
    have hif : (insFold (keyOf byK) [] l₀).Perm l₀ := by
      simpa using insFold_perm (keyOf byK) l₀ []
    exact hif.trans hp.symm

theorem shell_sort_sorted (byK : String) (data : List Mahasiswa) :
    SortedBy (keyOf byK) (shell_sort byK data) := by
  by_cases h : data.length / 2 = 0
  · unfold shell_sort
    rw [h]
    rcases data with _ | ⟨a, _ | ⟨b, t⟩⟩
    · show SortedBy (keyOf byK) ([] : List Mahasiswa)
      simp
    · show SortedBy (keyOf byK) [a]
      simp
    · exfalso
      simp only [List.length_cons] at h
      omega
  · obtain ⟨l₀, hp, he⟩ := shellGapsF_spec (keyOf byK) (data.length / 2) (data.length / 2)
      data (le_refl _) (by omega)
    show SortedBy (keyOf byK) (shellGapsF (keyOf byK) (data.length / 2) (data.length / 2) data)
    rw [he]
    exact insFold_sorted (keyOf byK) l₀ [] (by simp)

/-! ### C1: every sort is a sorted permutation -/

/-- C1: for every key selector and every record list, each of the five sort
functions (bubble, selection, insertion, merge, shell) returns a permutation
of its input (nothing dropped, duplicated or fabricated) that is ordered
non-decreasing by the selected key (name case-insensitively, registration
number lexicographically). -/
theorem sorts_permutation_and_sorted :
    ∀ (byK : String) (data : List Mahasiswa),
      ((bubble_sort byK data).Perm data ∧ SortedBy (keyOf byK) (bubble_sort byK data))
      ∧ ((selection_sort byK data).Perm data ∧ SortedBy (keyOf byK) (selection_sort byK data))
      ∧ ((insertion_sort byK data).Perm data ∧ SortedBy (keyOf byK) (insertion_sort byK data))
      ∧ ((merge_sort byK data).Perm data ∧ SortedBy (keyOf byK) (merge_sort byK data))
      ∧ ((shell_sort byK data).Perm data ∧ SortedBy (keyOf byK) (shell_sort byK data)) :=
  fun byK data =>
    ⟨⟨bubble_sort_perm byK data, bubble_sort_sorted byK data⟩,
     ⟨selection_sort_perm byK data, selection_sort_sorted byK data⟩,
     ⟨insertion_sort_perm byK data, insertion_sort_sorted byK data⟩,
     ⟨merge_sort_perm byK data, merge_sort_sorted byK data⟩,
     ⟨shell_sort_perm byK data, shell_sort_sorted byK data⟩⟩

/-! ### C2: selection sort is not stable -/

/-- C2 counterexample: swap-based selection sort is not stable.  Sorting
[(1, x, nim 2), (2, y, nim 2), (3, z, nim 1)] by nim swaps the first record
past its equal-key partner: the filter of the output at key nim = "2" is
[record 2, record 1], reversing their input order. -/
theorem selection_sort_stability_cex :
    ¬ (∀ (l : List Mahasiswa) (byK : String) (v : List Char),
        (selection_sort byK l).filter (fun m => keyOf byK m == v)
          = l.filter (fun m => keyOf byK m == v)) := by
  intro h
  have hc := h [⟨1, "x", "2"⟩, ⟨2, "y", "2"⟩, ⟨3, "z", "1"⟩] "nim" ['2']
  exact absurd hc (by decide)

/-- C2 amended: selection_sort is NOT stable — there is an input list, key
and key value whose equal-key records come out in reversed relative order
(the swap into position i moves the record at i behind its equal-key
partners) — though it does sort: its output is always a permutation of the
input ordered non-decreasing by the chosen key. -/
theorem selection_sort_sorts_but_unstable :
    (∃ (l : List Mahasiswa) (byK : String) (v : List Char),
        (selection_sort byK l).filter (fun m => keyOf byK m == v)
          ≠ l.filter (fun m => keyOf byK m == v))
    ∧ ∀ (byK : String) (l : List Mahasiswa),
        (selection_sort byK l).Perm l ∧ SortedBy (keyOf byK) (selection_sort byK l) := by
  constructor
  · exact ⟨[⟨1, "x", "2"⟩, ⟨2, "y", "2"⟩, ⟨3, "z", "1"⟩], "nim", ['2'], by decide⟩
  · intro byK l
    exact ⟨selection_sort_perm byK l, selection_sort_sorted byK l⟩

/-! ### C5: binary search finds exactly the exact full-value matches -/

theorem sortedBy_getD_le (k : Mahasiswa → List Char) (sd : List Mahasiswa)
    (hs : SortedBy k sd) : ∀ (i j : Nat), i ≤ j → j < sd.length →
      k (sd.getD i mhs0) ≤ k (sd.getD j mhs0) := by
  intro i j hij hj
  rcases Nat.eq_or_lt_of_le hij with rfl | hlt
  · exact le_refl _
  · rw [List.getD_eq_getElem _ _ (by omega), List.getD_eq_getElem _ _ hj]
    have hp := List.pairwise_iff_get.mp hs ⟨i, by omega⟩ ⟨j, hj⟩ (by simpa using hlt)
    simpa using hp

theorem ediv2_bounds (low high : Int) (h : low ≤ high) :
    low ≤ (low + high).ediv 2 ∧ (low + high).ediv 2 ≤ high := by
  constructor
  · have h2 : (2 * low).ediv 2 = low := Int.mul_ediv_cancel_left low (by norm_num)
    calc low = (2 * low).ediv 2 := h2.symm
      _ ≤ (low + high).ediv 2 := Int.ediv_le_ediv (by norm_num) (by omega)
  · have h2 : (2 * high).ediv 2 = high := Int.mul_ediv_cancel_left high (by norm_num)
    calc (low + high).ediv 2 ≤ (2 * high).ediv 2 := Int.ediv_le_ediv (by norm_num) (by omega)
      _ = high := h2

theorem bsLoop_some_mem (sd : List Mahasiswa) (nim : List Char) :
    ∀ (fuel : Nat) (low high : Int) (r : Mahasiswa), 0 ≤ low → high < (sd.length : Int) →
      bsLoop sd nim fuel low high = some r → r ∈ sd ∧ r.nim.data = nim := by
  intro fuel
  induction fuel with
  | zero => intro low high r _ _ h; simp [bsLoop] at h
  | succ f ih =>
    intro low high r h0 hh h
    by_cases hlh : low ≤ high
    · have hb := ediv2_bounds low high hlh
      simp only [bsLoop, if_pos hlh] at h
      by_cases he : (sd.getD ((low + high).ediv 2).toNat mhs0).nim.data = nim
      · rw [if_pos he] at h
        have hr : sd.getD ((low + high).ediv 2).toNat mhs0 = r := Option.some.inj h
        have hidx : ((low + high).ediv 2).toNat < sd.length := by omega
        constructor
        · rw [← hr, List.getD_eq_getElem _ _ hidx]
          exact List.getElem_mem hidx
        · rw [← hr]
          exact he
      · rw [if_neg he] at h
        by_cases hlt : (sd.getD ((low + high).ediv 2).toNat mhs0).nim.data < nim
        · rw [if_pos hlt] at h
          exact ih ((low + high).ediv 2 + 1) high r (by omega) hh h
        · rw [if_neg hlt] at h
          exact ih low ((low + high).ediv 2 - 1) r h0 (by omega) h
    · simp only [bsLoop, if_neg hlh] at h
      exact absurd h (by simp)

theorem bsLoop_none_complete (sd : List Mahasiswa) (nim : List Char)
    (hs : SortedBy (fun m => m.nim.data) sd) :
    ∀ (fuel : Nat) (low high : Int), 0 ≤ low → high < (sd.length : Int) →
      (high - low + 1).toNat ≤ fuel →
      (∀ i : Nat, i < sd.length → ((i : Int) < low ∨ high < (i : Int)) →
        (sd.getD i mhs0).nim.data ≠ nim) →
      bsLoop sd nim fuel low high = none →
      ∀ m ∈ sd, m.nim.data ≠ nim := by
  intro fuel
  induction fuel with
  | zero =>
    intro low high h0 hh hf hex _
    intro m hm
    obtain ⟨i, hi, hmi⟩ := List.getElem_of_mem hm
    have hni := hex i hi (by omega)
    rw [List.getD_eq_getElem _ _ hi, hmi] at hni
    exact hni
  | succ f ih =>
    intro low high h0 hh hf hex hnone
    by_cases hlh : low ≤ high
    · have hb := ediv2_bounds low high hlh
      have hidx : ((low + high).ediv 2).toNat < sd.length := by omega
      simp only [bsLoop, if_pos hlh] at hnone
      by_cases he : (sd.getD ((low + high).ediv 2).toNat mhs0).nim.data = nim
      · rw [if_pos he] at hnone
        exact absurd hnone (by simp)
      · rw [if_neg he] at hnone
        by_cases hlt : (sd.getD ((low + high).ediv 2).toNat mhs0).nim.data < nim
        · rw [if_pos hlt] at hnone
          refine ih ((low + high).ediv 2 + 1) high (by omega) hh (by omega) ?_ hnone
          intro i hi hcase
          rcases hcase with hlow | hhigh
          · by_cases hilow : (i : Int) < low
            · exact hex i hi (Or.inl hilow)
            · have hile : i ≤ ((low + high).ediv 2).toNat := by omega
              have hle : (sd.getD i mhs0).nim.data
                  ≤ (sd.getD ((low + high).ediv 2).toNat mhs0).nim.data :=
                sortedBy_getD_le (fun m => m.nim.data) sd hs i _ hile hidx
              intro heq
              rw [heq] at hle
              exact absurd (lt_of_le_of_lt hle hlt) (lt_irrefl _)
          · exact hex i hi (Or.inr hhigh)
        · rw [if_neg hlt] at hnone
          have hgt : nim < (sd.getD ((low + high).ediv 2).toNat mhs0).nim.data :=
            lt_of_le_of_ne (le_of_not_lt hlt) (fun hh2 => he hh2.symm)
          refine ih low ((low + high).ediv 2 - 1) h0 (by omega) (by omega) ?_ hnone
          intro i hi hcase
          rcases hcase with hlow | hhigh
          · exact hex i hi (Or.inl hlow)
          · by_cases hihigh : high < (i : Int)
            · exact hex i hi (Or.inr hihigh)
            · have hmle : ((low + high).ediv 2).toNat ≤ i := by omega
              have hle : (sd.getD ((low + high).ediv 2).toNat mhs0).nim.data
                  ≤ (sd.getD i mhs0).nim.data :=
                sortedBy_getD_le (fun m => m.nim.data) sd hs _ i hmle hi
              intro heq
              rw [heq] at hle
              exact absurd (lt_of_lt_of_le hgt hle) (lt_irrefl _)
    · simp only [bsLoop, if_neg hlh] at hnone
      intro m hm
      obtain ⟨i, hi, hmi⟩ := List.getElem_of_mem hm
      have hni := hex i hi (by omega)
      rw [List.getD_eq_getElem _ _ hi, hmi] at hni
      exact hni

theorem binary_search_eq_loop (data : List Mahasiswa) (key : String) :
    binary_search data key
      = bsLoop (msFuel (fun m => m.nim.data) data.length data) key.data
          ((msFuel (fun m => m.nim.data) data.length data).length + 1) 0
          (((msFuel (fun m => m.nim.data) data.length data).length : Int) - 1) := rfl

theorem binary_search_some_spec (data : List Mahasiswa) (key : String) (r : Mahasiswa)
    (h : binary_search data key = some r) : r ∈ data ∧ r.nim = key := by
  rw [binary_search_eq_loop] at h
  have hperm := msFuel_perm (fun m => m.nim.data) data.length data
  have hsome := bsLoop_some_mem (msFuel (fun m => m.nim.data) data.length data) key.data
    _ 0 _ r (by omega) (by omega) h
  exact ⟨hperm.mem_iff.mp hsome.1, strEq_of_data hsome.2⟩

theorem binary_search_none_spec (data : List Mahasiswa) (key : String)
    (h : binary_search data key = none) : ∀ m ∈ data, m.nim ≠ key := by
  rw [binary_search_eq_loop] at h
  have hperm := msFuel_perm (fun m => m.nim.data) data.length data
  have hsort := msFuel_sorted (fun m => m.nim.data) data.length data (le_refl _)
  have hcompl := bsLoop_none_complete (msFuel (fun m => m.nim.data) data.length data)
    key.data hsort ((msFuel (fun m => m.nim.data) data.length data).length + 1) 0
    (((msFuel (fun m => m.nim.data) data.length data).length : Int) - 1)
    (by omega) (by omega) (by omega)
    (by intro i hi hcase; exfalso; omega) h
  intro m hm hk
  exact hcompl m (hperm.mem_iff.mpr hm) (by rw [hk])

/-- C5: binary_search returns a record whose registration number equals the
search key exactly when some record of the list carries exactly that
registration number (never a proper substring match), returns none
otherwise, and its found/not-found outcome is the same for every
permutation of the input, since the internal sort normalizes the order. -/
theorem binary_search_correct :
    ∀ (data : List Mahasiswa) (key : String),
      ((∃ m ∈ data, m.nim = key) →
        ∃ r, binary_search data key = some r ∧ r.nim = key ∧ r ∈ data)
      ∧ ((¬ ∃ m ∈ data, m.nim = key) → binary_search data key = none)
      ∧ (∀ data' : List Mahasiswa, data.Perm data' →
          (binary_search data key).isSome = (binary_search data' key).isSome) := by
  intro data key
  have hA : (∃ m ∈ data, m.nim = key) →
      ∃ r, binary_search data key = some r ∧ r.nim = key ∧ r ∈ data := by
    intro hex
    rcases hres : binary_search data key with _ | r
    · exfalso
      obtain ⟨m, hm, hk⟩ := hex
      exact binary_search_none_spec data key hres m hm hk
    · have hsp := binary_search_some_spec data key r hres
      exact ⟨r, rfl, hsp.2, hsp.1⟩
  have hB : (¬ ∃ m ∈ data, m.nim = key) → binary_search data key = none := by
    intro hnex
    rcases hres : binary_search data key with _ | r
    · rfl
    · exfalso
      have hsp := binary_search_some_spec data key r hres
      exact hnex ⟨r, hsp.1, hsp.2⟩
  refine ⟨hA, hB, ?_⟩
  intro data' hperm
  have hT : ∀ (d : List Mahasiswa), (∃ m ∈ d, m.nim = key) →
      (binary_search d key).isSome = true := by
    intro d hex
    rcases hres : binary_search d key with _ | r
    · exfalso
      obtain ⟨m, hm, hk⟩ := hex
      exact binary_search_none_spec d key hres m hm hk
    · rfl
  have hF : ∀ (d : List Mahasiswa), (¬ ∃ m ∈ d, m.nim = key) →
      (binary_search d key).isSome = false := by
    intro d hnex
    rcases hres : binary_search d key with _ | r
    · rfl
    · exfalso
      have hsp := binary_search_some_spec d key r hres
      exact hnex ⟨r, hsp.1, hsp.2⟩
  by_cases hex : ∃ m ∈ data, m.nim = key
  · have hex' : ∃ m ∈ data', m.nim = key := by
      obtain ⟨m, hm, hk⟩ := hex
      exact ⟨m, hperm.mem_iff.mp hm, hk⟩
    rw [hT data hex, hT data' hex']
  · have hnex' : ¬ ∃ m ∈ data', m.nim = key := by
      intro hex'
      obtain ⟨m, hm, hk⟩ := hex'
      exact hex ⟨m, hperm.mem_iff.mpr hm, hk⟩
    rw [hF data hex, hF data' hnex']

/-- Witness for C5: on a concrete three-record list, the key "2" is found
(with the exact matching record), the absent key "9" gives none, and a
permuted copy of the list yields the same found outcome. -/
theorem binary_search_correct_witness :
    (∃ r, binary_search [⟨1, "x", "3"⟩, ⟨2, "y", "1"⟩, ⟨3, "z", "2"⟩] "2" = some r
        ∧ r.nim = "2" ∧ r ∈ [⟨1, "x", "3"⟩, ⟨2, "y", "1"⟩, ⟨3, "z", "2"⟩])
    ∧ binary_search [⟨1, "x", "3"⟩, ⟨2, "y", "1"⟩, ⟨3, "z", "2"⟩] "9" = none
    ∧ (binary_search [⟨1, "x", "3"⟩, ⟨2, "y", "1"⟩, ⟨3, "z", "2"⟩] "2").isSome
        = (binary_search [⟨3, "z", "2"⟩, ⟨1, "x", "3"⟩, ⟨2, "y", "1"⟩] "2").isSome := by
  have h2 := binary_search_correct [⟨1, "x", "3"⟩, ⟨2, "y", "1"⟩, ⟨3, "z", "2"⟩] "2"
  have h9 := binary_search_correct [⟨1, "x", "3"⟩, ⟨2, "y", "1"⟩, ⟨3, "z", "2"⟩] "9"
  exact ⟨h2.1 ⟨⟨3, "z", "2"⟩, by decide, rfl⟩, h9.2.1 (by decide), h2.2.2 _ (by decide)⟩
